import Mathlib

/-!
Shallow embedding of `pkg/encryption/cipher.go` (package `encryption`).

Modelling conventions:
* Go `[]byte` and Go `string` are both byte sequences; we model both as
  `List Nat` with the invariant that each entry is `< 256` where it matters
  (Go's `byte` type enforces this; on the Lean side it is tracked by the
  predicate `GoodBytes`).  Go `string([]byte)` / `[]byte(string)` conversions
  are byte-preserving, hence identities here.
* Go slices are modelled with capacity equal to length, so a slice
  expression `s[:n]` with `n > len(s)` is a runtime panic, modelled by the
  `Outcome.panicked` constructor.
* The ambient cryptographically secure randomness (`crypto/rand.Reader`)
  is modelled as an explicit byte-stream argument `rnd`; `io.ReadFull`
  consumes a prefix of it and fails when the stream is too short.
* `crypto/aes` and `crypto/cipher` (CFB, GCM, base64 from `encoding/base64`)
  are the Go standard library functions the source calls; they are embedded
  here as executable Lean functions with the same observable behaviour
  (AES-128/192/256 block encryption, CFB keystream, GCM seal/open, standard
  padded base64).
-/

namespace CipherGo

/-- Go byte sequences (both `[]byte` and `string`). -/
abbrev GoBytes := List Nat

/-- Each entry of the sequence is a genuine byte value. -/
def GoodBytes (l : GoBytes) : Prop := ∀ b ∈ l, b < 256

/-- All words of a word list are byte-valued. -/
def GoodWords (ws : List GoBytes) : Prop := ∀ w ∈ ws, GoodBytes w

instance (l : GoBytes) : Decidable (GoodBytes l) := by
  unfold GoodBytes; infer_instance

/-- The error values the Go code can return, keyed by §7's taxonomy:
`keySize n` is `aes.KeySizeError` (spec: KeySetupError); `entropy` is a
failure of `io.ReadFull(rand.Reader, _)` (spec: EntropyError);
`malformedCiphertext` covers the CFB short-input `fmt.Errorf` and the
base64 decode failure (spec: MalformedCiphertextError); `authFailed` is
GCM's `errOpen` (spec: AuthenticationError). -/
inductive GoErr where
  | keySize (n : Nat)
  | entropy
  | malformedCiphertext
  | authFailed
  deriving DecidableEq, Repr

/-- Result of running a Go function: a value, a returned error, or a
runtime panic (e.g. slice bounds out of range). -/
inductive Outcome (α : Type) where
  | ok (a : α)
  | err (e : GoErr)
  | panicked
  deriving DecidableEq, Repr

/-- Sequencing of Go calls: errors and panics propagate. -/
def obind {α β : Type} : Outcome α → (α → Outcome β) → Outcome β
  | .ok a, f => f a
  | .err e, _ => .err e
  | .panicked, _ => .panicked

/-- Byte-wise XOR of two buffers, truncated to the shorter one
(Go's `xorBytes`). -/
def zipXor (a b : GoBytes) : GoBytes := List.zipWith Nat.xor a b

/-- Go `io.ReadFull(rand.Reader, buf)` with `len(buf) = n`: consumes the
first `n` bytes of the entropy stream, failing when it is exhausted. -/
def readFull (n : Nat) (rnd : GoBytes) : Option GoBytes :=
  if n ≤ rnd.length then some (rnd.take n) else none

/-! ## crypto/aes: the AES block cipher (encryption direction only;
CFB and GCM use the block cipher only in the forward direction). -/

/-- The AES S-box (`crypto/aes` `sbox0`). -/
def sbox : GoBytes :=
  [99, 124, 119, 123, 242, 107, 111, 197, 48, 1, 103, 43, 254, 215, 171, 118,
   202, 130, 201, 125, 250, 89, 71, 240, 173, 212, 162, 175, 156, 164, 114, 192,
   183, 253, 147, 38, 54, 63, 247, 204, 52, 165, 229, 241, 113, 216, 49, 21,
   4, 199, 35, 195, 24, 150, 5, 154, 7, 18, 128, 226, 235, 39, 178, 117,
   9, 131, 44, 26, 27, 110, 90, 160, 82, 59, 214, 179, 41, 227, 47, 132,
   83, 209, 0, 237, 32, 252, 177, 91, 106, 203, 190, 57, 74, 76, 88, 207,
   208, 239, 170, 251, 67, 77, 51, 133, 69, 249, 2, 127, 80, 60, 159, 168,
   81, 163, 64, 143, 146, 157, 56, 245, 188, 182, 218, 33, 16, 255, 243, 210,
   205, 12, 19, 236, 95, 151, 68, 23, 196, 167, 126, 61, 100, 93, 25, 115,
   96, 129, 79, 220, 34, 42, 144, 136, 70, 238, 184, 20, 222, 94, 11, 219,
   224, 50, 58, 10, 73, 6, 36, 92, 194, 211, 172, 98, 145, 149, 228, 121,
   231, 200, 55, 109, 141, 213, 78, 169, 108, 86, 244, 234, 101, 122, 174, 8,
   186, 120, 37, 46, 28, 166, 180, 198, 232, 221, 116, 31, 75, 189, 139, 138,
   112, 62, 181, 102, 72, 3, 246, 14, 97, 53, 87, 185, 134, 193, 29, 158,
   225, 248, 152, 17, 105, 217, 142, 148, 155, 30, 135, 233, 206, 85, 40, 223,
   140, 161, 137, 13, 191, 230, 66, 104, 65, 153, 45, 15, 176, 84, 187, 22]

/-- S-box lookup of one byte. -/
def sub1 (b : Nat) : Nat := sbox.getD b 0

/-- Multiplication by `x` in GF(2^8) on a byte (the result is truncated
to a byte, as Go's `uint8` arithmetic does). -/
def xtime (b : Nat) : Nat := ((2 * b) ^^^ (if 128 ≤ b then 27 else 0)) % 256

/-- AES round constant bytes: `rconByte 1 = 1`, doubled in GF(2^8) at
each step. -/
def rconByte : Nat → Nat
  | 0 => 0
  | 1 => 1
  | n + 2 => xtime (rconByte (n + 1))

/-- SubWord of the key schedule: S-box applied to the 4 bytes of a word. -/
def subWord (w : GoBytes) : GoBytes := w.map sub1

/-- RotWord of the key schedule: rotate the 4-byte word left by one byte. -/
def rotWord (w : GoBytes) : GoBytes := w.drop 1 ++ w.take 1

/-- Split a byte sequence into 4-byte words (fuelled so the kernel can
evaluate it; the fuel is the list length, far above the word count). -/
def toWords : Nat → GoBytes → List GoBytes
  | 0, _ => []
  | _ + 1, [] => []
  | n + 1, l => l.take 4 :: toWords n (l.drop 4)

/-- The key-expansion loop (`crypto/aes` `expandKeyGo`): starting from the
`nk` key words, append `fuel` further words. -/
def expandLoop (nk : Nat) : Nat → List GoBytes → List GoBytes
  | 0, ws => ws
  | n + 1, ws =>
    let i := ws.length
    let t0 := ws.getD (i - 1) []
    let t :=
      if i % nk = 0 then
        zipXor (subWord (rotWord t0)) [rconByte (i / nk), 0, 0, 0]
      else if 6 < nk ∧ i % nk = 4 then subWord t0
      else t0
    expandLoop nk n (ws ++ [zipXor (ws.getD (i - nk) []) t])

/-- The full AES key schedule as a list of 4-byte words. -/
def keySchedule (key : GoBytes) : List GoBytes :=
  let nk := key.length / 4
  let nr := nk + 6
  expandLoop nk (4 * (nr + 1) - nk) (toWords key.length key)

/-- Round key `r`: four consecutive schedule words, 16 bytes. -/
def roundKey (ws : List GoBytes) (r : Nat) : GoBytes :=
  ws.getD (4 * r) [] ++ ws.getD (4 * r + 1) [] ++
    ws.getD (4 * r + 2) [] ++ ws.getD (4 * r + 3) []

/-- AddRoundKey: byte-wise XOR over the fixed 16-byte state. -/
def addRoundKey (s rk : GoBytes) : GoBytes :=
  (List.range 16).map fun i => Nat.xor (s.getD i 0) (rk.getD i 0)

/-- SubBytes on the 16-byte state. -/
def subBytes (s : GoBytes) : GoBytes := s.map sub1

/-- ShiftRows on the column-major 16-byte state:
`out[r + 4c] = s[r + 4((c + r) mod 4)]`. -/
def shiftRows (s : GoBytes) : GoBytes :=
  (List.range 16).map fun i => s.getD (i % 4 + 4 * ((i / 4 + i % 4) % 4)) 0

/-- MixColumns on one 4-byte column. -/
def mixColumn (a0 a1 a2 a3 : Nat) : GoBytes :=
  [Nat.xor (Nat.xor (Nat.xor (xtime a0) (xtime a1)) (Nat.xor a1 a2)) a3,
   Nat.xor (Nat.xor (Nat.xor a0 (xtime a1)) (Nat.xor (xtime a2) a2)) a3,
   Nat.xor (Nat.xor (Nat.xor a0 a1) (Nat.xor (xtime a2) (xtime a3))) a3,
   Nat.xor (Nat.xor (Nat.xor (xtime a0) a0) (Nat.xor a1 a2)) (xtime a3)]

/-- MixColumns on the 16-byte state. -/
def mixColumns (s : GoBytes) : GoBytes :=
  mixColumn (s.getD 0 0) (s.getD 1 0) (s.getD 2 0) (s.getD 3 0) ++
  mixColumn (s.getD 4 0) (s.getD 5 0) (s.getD 6 0) (s.getD 7 0) ++
  mixColumn (s.getD 8 0) (s.getD 9 0) (s.getD 10 0) (s.getD 11 0) ++
  mixColumn (s.getD 12 0) (s.getD 13 0) (s.getD 14 0) (s.getD 15 0)

/-- The middle AES rounds (SubBytes, ShiftRows, MixColumns, AddRoundKey),
`fuel` of them starting at round index `r`. -/
def aesRounds (ws : List GoBytes) : Nat → Nat → GoBytes → GoBytes
  | _, 0, s => s
  | r, n + 1, s =>
    aesRounds ws (r + 1) n
      (addRoundKey (mixColumns (shiftRows (subBytes s))) (roundKey ws r))

/-- AES block encryption (`cipher.Block.Encrypt` for the key schedule of
`key`, which has 10/12/14 rounds for 16/24/32-byte keys). -/
def aesEncryptBlock (key block : GoBytes) : GoBytes :=
  let nr := key.length / 4 + 6
  let ws := keySchedule key
  let s0 := addRoundKey block (roundKey ws 0)
  let s1 := aesRounds ws 1 (nr - 1) s0
  addRoundKey (shiftRows (subBytes s1)) (roundKey ws nr)

/-! ## crypto/cipher: CFB mode (as used via `cipher.NewCFBEncrypter` /
`cipher.NewCFBDecrypter` + one whole-message `XORKeyStream` call). -/

/-- CFB encryption body: per 16-byte chunk, XOR the plaintext with
`E(register)`; the produced ciphertext chunk becomes the next register.
Fuelled by the plaintext length (strictly more than the chunk count). -/
def cfbEncBody (E : GoBytes → GoBytes) : Nat → GoBytes → GoBytes → GoBytes
  | 0, _, _ => []
  | n + 1, reg, p =>
    if p.isEmpty then []
    else
      let c := zipXor (p.take 16) (E reg)
      c ++ cfbEncBody E n c (p.drop 16)

/-- CFB decryption body: per 16-byte chunk, XOR the ciphertext with
`E(register)`; the incoming ciphertext chunk becomes the next register. -/
def cfbDecBody (E : GoBytes → GoBytes) : Nat → GoBytes → GoBytes → GoBytes
  | 0, _, _ => []
  | n + 1, reg, ct =>
    if ct.isEmpty then []
    else
      zipXor (ct.take 16) (E reg) ++ cfbDecBody E n (ct.take 16) (ct.drop 16)

/-- The CFB decryption keystream determined by the register chain of the
ciphertext itself (one 16-byte block per chunk of the ciphertext). -/
def cfbKeystream (E : GoBytes → GoBytes) : Nat → GoBytes → GoBytes → GoBytes
  | 0, _, _ => []
  | n + 1, reg, ct =>
    if ct.isEmpty then []
    else E reg ++ cfbKeystream E n (ct.take 16) (ct.drop 16)

/-! ## crypto/cipher: GCM mode (`cipher.NewGCM` over AES, 12-byte nonce,
16-byte tag), embedding of `gcm.Seal` / `gcm.Open`. -/

/-- A 16-byte block as a 128-bit number, big-endian. -/
def blockToNat (b : GoBytes) : Nat := b.foldl (fun acc x => acc * 256 + x % 256) 0

/-- A 128-bit number as a 16-byte block, big-endian. -/
def natToBlock (n : Nat) : GoBytes :=
  (List.range 16).map fun i => n / 256 ^ (15 - i) % 256

/-- Multiplication in GF(2^128) with the GHASH bit order (bit 0 is the
most significant bit of the first byte): 128 shift-and-add steps. -/
def gmulStep : Nat → Nat → Nat → Nat → Nat
  | 0, _, _, z => z
  | n + 1, x, v, z =>
    let z := if x.testBit 127 then z ^^^ v else z
    let v := if v.testBit 0 then v / 2 ^^^ 0xe1000000000000000000000000000000 else v / 2
    gmulStep n (x * 2 % 2 ^ 128) v z

/-- GHASH field multiplication. -/
def gmul (x y : Nat) : Nat := gmulStep 128 x y 0

/-- GHASH accumulation over a list of 128-bit blocks. -/
def ghashBlocks (h : Nat) : Nat → List Nat → Nat
  | y, [] => y
  | y, b :: rest => ghashBlocks h (gmul (y ^^^ b) h) rest

/-- Split a byte sequence into 128-bit numbers, the last chunk zero-padded
on the right to 16 bytes (fuelled by the length). -/
def padBlocks : Nat → GoBytes → List Nat
  | 0, _ => []
  | _ + 1, [] => []
  | n + 1, l =>
    blockToNat (l.take 16 ++ List.replicate (16 - l.length) 0) :: padBlocks n (l.drop 16)

/-- The GHASH hash subkey `H = E(0^128)`. -/
def gcmH (key : GoBytes) : Nat := blockToNat (aesEncryptBlock key (List.replicate 16 0))

/-- The pre-counter block for a 12-byte nonce: `nonce ‖ 0^31 ‖ 1`. -/
def gcmJ0 (nonce : GoBytes) : GoBytes := nonce ++ [0, 0, 0, 1]

/-- Go `gcmInc32`: increment the last 32 bits of the counter block. -/
def inc32 (b : GoBytes) : GoBytes :=
  let n := (blockToNat b + 1) % 2 ^ 32
  b.take 12 ++ [n / 16777216 % 256, n / 65536 % 256, n / 256 % 256, n % 256]

/-- CTR keystream: `n` blocks `E(cb), E(inc32 cb), ...`. -/
def ctrBlocks (E : GoBytes → GoBytes) : Nat → GoBytes → GoBytes
  | 0, _ => []
  | n + 1, cb => E cb ++ ctrBlocks E n (inc32 cb)

/-- Go `gcm.counterCrypt`: XOR the data with the CTR keystream starting at
counter block `cb` (enough whole blocks to cover the data). -/
def gctr (key : GoBytes) (cb : GoBytes) (data : GoBytes) : GoBytes :=
  zipXor data (ctrBlocks (aesEncryptBlock key) ((data.length + 15) / 16) cb)

/-- Go `gcm.auth` for empty additional data: GHASH of the ciphertext and the
bit-length block, XORed with the tag mask `E(J0)`. -/
def gcmAuth (key nonce ct : GoBytes) : GoBytes :=
  let y := ghashBlocks (gcmH key) 0
    (padBlocks ct.length ct ++ [blockToNat (natToBlock (8 * ct.length))])
  zipXor (natToBlock y) (aesEncryptBlock key (gcmJ0 nonce))

/-- Go `gcm.Seal(nil-dst, nonce, plaintext, nil)`: ciphertext body followed by
the 16-byte tag. -/
def gcmSeal (key nonce p : GoBytes) : GoBytes :=
  let ct := gctr key (inc32 (gcmJ0 nonce)) p
  ct ++ gcmAuth key nonce ct

/-- Go `gcm.Open(nil, nonce, sealed, nil)`: reject inputs shorter than the
tag, recompute the tag over the body, compare, and decrypt on success. -/
def gcmOpen (key nonce sealed : GoBytes) : Outcome GoBytes :=
  if sealed.length < 16 then .err .authFailed
  else
    let ct := sealed.take (sealed.length - 16)
    let tag := sealed.drop (sealed.length - 16)
    if gcmAuth key nonce ct = tag then .ok (gctr key (inc32 (gcmJ0 nonce)) ct)
    else .err .authFailed

/-! ## encoding/base64: `base64.StdEncoding` encode and decode. -/

/-- The standard base64 alphabet as byte values
(`A..Z`, `a..z`, `0..9`, `+`, `/`). -/
def b64Alphabet : GoBytes :=
  (List.range 26).map (· + 65) ++ (List.range 26).map (· + 97) ++
    (List.range 10).map (· + 48) ++ [43, 47]

/-- The byte for six-bit value `v`. -/
def b64Char (v : Nat) : Nat := b64Alphabet.getD v 0

/-- The padding byte `=`. -/
def b64Pad : Nat := 61

/-- Go `base64.StdEncoding.EncodeToString`, producing the bytes of the padded
text encoding. -/
def b64Encode : GoBytes → GoBytes
  | a :: b :: c :: rest =>
    b64Char (a / 4) :: b64Char (a % 4 * 16 + b / 16) ::
      b64Char (b % 16 * 4 + c / 64) :: b64Char (c % 64) :: b64Encode rest
  | [a, b] => [b64Char (a / 4), b64Char (a % 4 * 16 + b / 16), b64Char (b % 16 * 4), b64Pad]
  | [a] => [b64Char (a / 4), b64Char (a % 4 * 16), b64Pad, b64Pad]
  | [] => []

/-- Index of a byte in the standard alphabet (`none` for `=` and any other
byte outside the alphabet). -/
def b64Idx (c : Nat) : Option Nat := List.findIdx? (fun a => a = c) b64Alphabet

/-- Decode the newline-free text in quantums of four characters, with
padding allowed only at the end (Go's `decodeQuantum` rules: at least two
data characters per final quantum, `=` only in the last two positions, and
nothing after the padding). -/
def b64DecodeQuantums : GoBytes → Option GoBytes
  | [] => some []
  | a :: b :: c :: d :: rest =>
    match b64Idx a, b64Idx b with
    | some x, some y =>
      if c = b64Pad then
        if d = b64Pad ∧ rest = [] then some [x * 4 + y / 16] else none
      else
        match b64Idx c with
        | some z =>
          if d = b64Pad then
            if rest = [] then some [x * 4 + y / 16, y % 16 * 16 + z / 4] else none
          else
            match b64Idx d with
            | some w =>
              (b64DecodeQuantums rest).map
                (fun tl => (x * 4 + y / 16) :: (y % 16 * 16 + z / 4) :: (z % 4 * 64 + w) :: tl)
            | none => none
        | none => none
    | _, _ => none
  | _ => none

/-- Go `base64.StdEncoding.DecodeString`: Go's decoder skips carriage returns
and newlines anywhere in the input, then decodes quantum-wise. -/
def b64Decode (s : GoBytes) : Option GoBytes :=
  b64DecodeQuantums (s.filter fun c => ¬(c = 10 ∨ c = 13))

/-! ## pkg/encryption/cipher.go itself. -/

/-- An `*string` argument: `none` is a nil pointer, `some s` a pointer to
the string `s` (strings are byte sequences). -/
abbrev GoStrPtr := Option GoBytes

/-- The `into` helper (cipher.go lines 162-174): nil or empty strings are
left untouched with success; otherwise the codec runs on the string's
bytes and, on success, the result is stored back through the pointer.
The `ok` payload is the pointed-to string after the call. -/
def into (f : GoBytes → Outcome GoBytes) : GoStrPtr → Outcome GoStrPtr
  | none => .ok none
  | some s =>
    if s = [] then .ok (some s)
    else
      match f s with
      | .ok d => .ok (some d)
      | .err e => .err e
      | .panicked => .panicked

/-- Go `DefaultCipher.Encrypt`: the dummy identity transform. -/
def DefaultCipher.Encrypt (value : GoBytes) : Outcome GoBytes := .ok value

/-- Go `DefaultCipher.Decrypt`: the dummy identity transform. -/
def DefaultCipher.Decrypt (ciphertext : GoBytes) : Outcome GoBytes := .ok ciphertext

/-- Go `DefaultCipher.EncryptInto`: `into(c.Encrypt, s)` with the receiver a
`*DefaultCipher`, so `c.Encrypt` is the identity `DefaultCipher.Encrypt`. -/
def DefaultCipher.EncryptInto : GoStrPtr → Outcome GoStrPtr :=
  into DefaultCipher.Encrypt

/-- Go `DefaultCipher.DecryptInto`: `into(c.Decrypt, s)` with the receiver a
`*DefaultCipher`. -/
def DefaultCipher.DecryptInto : GoStrPtr → Outcome GoStrPtr :=
  into DefaultCipher.Decrypt

/-- A `*CFBCipher`: embeds `DefaultCipher` and a `cipher.Block`.  The Go
value stores the expanded AES key schedule; we keep the validated secret
and expand it on use (`keySchedule` is deterministic, so this is the same
block function). -/
structure CFBCipher where
  key : GoBytes
  deriving DecidableEq, Repr

/-- A `*GCMCipher`: embeds `DefaultCipher` and a `cipher.Block`. -/
structure GCMCipher where
  key : GoBytes
  deriving DecidableEq, Repr

/-- Go `aes.NewCipher`: accepts 16/24/32-byte keys, otherwise
`aes.KeySizeError(len)`. -/
def aesNewCipher (secret : GoBytes) : Outcome GoBytes :=
  if secret.length = 16 ∨ secret.length = 24 ∨ secret.length = 32 then .ok secret
  else .err (.keySize secret.length)

/-- Go `NewCFBCipher`. -/
def NewCFBCipher (secret : GoBytes) : Outcome CFBCipher :=
  obind (aesNewCipher secret) fun k => .ok ⟨k⟩

/-- Go `NewGCMCipher`. -/
def NewGCMCipher (secret : GoBytes) : Outcome GCMCipher :=
  obind (aesNewCipher secret) fun k => .ok ⟨k⟩

/-- Go `CFBCipher.Encrypt`: draw a 16-byte IV from the entropy stream, then
emit `IV ‖ CFB-encrypted body` (the output buffer is freshly `make`d). -/
def CFBCipher.Encrypt (c : CFBCipher) (rnd value : GoBytes) : Outcome GoBytes :=
  match readFull 16 rnd with
  | none => .err .entropy
  | some iv =>
    .ok (iv ++ cfbEncBody (aesEncryptBlock c.key) (value.length + 1) iv value)

/-- Go `CFBCipher.Decrypt`: reject inputs shorter than one block, else split
the IV off and XOR the keystream over the remainder. -/
def CFBCipher.Decrypt (c : CFBCipher) (ciphertext : GoBytes) : Outcome GoBytes :=
  if ciphertext.length < 16 then .err .malformedCiphertext
  else
    .ok (cfbDecBody (aesEncryptBlock c.key) (ciphertext.length + 1)
      (ciphertext.take 16) (ciphertext.drop 16))

/-- Go `CFBCipher.Decrypt` together with the final contents of the caller's
buffer: `stream.XORKeyStream(ciphertext, ciphertext)` writes the plaintext
in place over the body, so on success the buffer holds `IV ‖ plaintext`
(and the returned slice aliases its tail). -/
def CFBCipher.DecryptBuf (c : CFBCipher) (buf : GoBytes) : Outcome GoBytes × GoBytes :=
  (CFBCipher.Decrypt c buf,
    if buf.length < 16 then buf
    else
      buf.take 16 ++ cfbDecBody (aesEncryptBlock c.key) (buf.length + 1)
        (buf.take 16) (buf.drop 16))

/-- Go `CFBCipher.EncryptInto`: `CFBCipher` declares no `EncryptInto`, so the
call resolves to the promoted method of the embedded `DefaultCipher`; its
receiver is that embedded `DefaultCipher` value, so the codec used is the
identity `DefaultCipher.Encrypt`, not `CFBCipher.Encrypt`. -/
def CFBCipher.EncryptInto (_c : CFBCipher) : GoStrPtr → Outcome GoStrPtr :=
  DefaultCipher.EncryptInto

/-- Go `CFBCipher.DecryptInto`: promoted from the embedded `DefaultCipher`. -/
def CFBCipher.DecryptInto (_c : CFBCipher) : GoStrPtr → Outcome GoStrPtr :=
  DefaultCipher.DecryptInto

/-- Go `GCMCipher.Encrypt`: draw a 12-byte nonce, then
`gcm.Seal(nonce, nonce, value, nil)` = `nonce ‖ body ‖ tag`. -/
def GCMCipher.Encrypt (c : GCMCipher) (rnd value : GoBytes) : Outcome GoBytes :=
  match readFull 12 rnd with
  | none => .err .entropy
  | some nonce => .ok (nonce ++ gcmSeal c.key nonce value)

/-- Go `GCMCipher.Decrypt`: `ciphertext[:12]` / `ciphertext[12:]` with no
length guard — on an input shorter than the nonce the slice expression is
out of range and the call panics; otherwise `gcm.Open` on the remainder. -/
def GCMCipher.Decrypt (c : GCMCipher) (ciphertext : GoBytes) : Outcome GoBytes :=
  if ciphertext.length < 12 then .panicked
  else gcmOpen c.key (ciphertext.take 12) (ciphertext.drop 12)

/-- Go `GCMCipher.EncryptInto`: promoted from the embedded `DefaultCipher`,
so the codec is the identity `DefaultCipher.Encrypt`. -/
def GCMCipher.EncryptInto (_c : GCMCipher) : GoStrPtr → Outcome GoStrPtr :=
  DefaultCipher.EncryptInto

/-- Go `GCMCipher.DecryptInto`: promoted from the embedded `DefaultCipher`. -/
def GCMCipher.DecryptInto (_c : GCMCipher) : GoStrPtr → Outcome GoStrPtr :=
  DefaultCipher.DecryptInto

/-- Go `Base64Cipher.Encrypt`, parameterised by the inner cipher's `Encrypt`
(the `Cipher` interface field): inner-encrypt, then base64-encode. -/
def Base64Cipher.Encrypt (encInner : GoBytes → GoBytes → Outcome GoBytes)
    (rnd value : GoBytes) : Outcome GoBytes :=
  obind (encInner rnd value) fun e => .ok (b64Encode e)

/-- Go `Base64Cipher.Decrypt`, parameterised by the inner cipher's `Decrypt`:
base64-decode (failure is the malformed-input error), then inner-decrypt. -/
def Base64Cipher.Decrypt (decInner : GoBytes → Outcome GoBytes)
    (ciphertext : GoBytes) : Outcome GoBytes :=
  match b64Decode ciphertext with
  | none => .err .malformedCiphertext
  | some d => decInner d

/-- Go `Base64Cipher.EncryptInto`: `Base64Cipher` embeds `DefaultCipher` and
declares no `EncryptInto`, so it promotes to the identity helper. -/
def Base64Cipher.EncryptInto : GoStrPtr → Outcome GoStrPtr :=
  DefaultCipher.EncryptInto

/-- Go `Base64Cipher.DecryptInto`: promoted from the embedded `DefaultCipher`. -/
def Base64Cipher.DecryptInto : GoStrPtr → Outcome GoStrPtr :=
  DefaultCipher.DecryptInto

/-- Go `NewBase64Cipher`: run the inner constructor and wrap its instance
(the wrapper value is just the inner instance). -/
def NewBase64Cipher {I : Type} (initCipher : GoBytes → Outcome I)
    (secret : GoBytes) : Outcome I :=
  obind (initCipher secret) fun c => .ok c

/-- Increment the last byte of a byte sequence by one (wrapping, as Go
byte arithmetic does); used to state the tamper-detection scenario. -/
def bumpLast (l : GoBytes) : GoBytes :=
  l.dropLast ++ (match l.getLast? with | some b => [(b + 1) % 256] | none => [])

/-- The bytes of the ASCII string `hello world`. -/
def helloWorld : GoBytes := [104, 101, 108, 108, 111, 32, 119, 111, 114, 108, 100]

/-! ## Helper lemmas: XOR buffers and byte bounds. -/

theorem length_zipXor (a b : GoBytes) : (zipXor a b).length = min a.length b.length := by
  simp [zipXor]

theorem zipXor_cancel_right : ∀ a b : GoBytes, a.length ≤ b.length →
    zipXor (zipXor a b) b = a
  | [], _, _ => rfl
  | _ :: _, [], h => by simp at h
  | x :: a, y :: b, h => by
    simp only [zipXor, List.zipWith] at *
    refine congrArg₂ _ (Nat.xor_cancel_right y x) ?_
    exact zipXor_cancel_right a b (by simpa using h)

theorem getD_of_all {α : Type} (P : α → Prop) (d : α) (hd : P d) :
    ∀ (l : List α), (∀ x ∈ l, P x) → ∀ i, P (l.getD i d)
  | [], _, _ => by simpa [List.getD]
  | a :: _, h, 0 => h a (List.mem_cons_self _ _)
  | _ :: l, h, i + 1 =>
    getD_of_all P d hd l (fun x hx => h x (List.mem_cons_of_mem _ hx)) i

theorem xor_lt_256 {a b : Nat} (ha : a < 256) (hb : b < 256) : Nat.xor a b < 256 := by
  have h := Nat.xor_lt_two_pow (n := 8) ha hb
  simpa using h

theorem good_zipXor : ∀ {a b : GoBytes}, GoodBytes a → GoodBytes b →
    GoodBytes (zipXor a b)
  | [], _, _, _ => by simp [zipXor, GoodBytes]
  | _ :: _, [], _, _ => by simp [zipXor, GoodBytes]
  | x :: a, y :: b, ha, hb => by
    intro v hv
    simp only [zipXor, List.zipWith, List.mem_cons] at hv
    rcases hv with rfl | hv
    · exact xor_lt_256 (ha x (List.mem_cons_self _ _)) (hb y (List.mem_cons_self _ _))
    · exact good_zipXor (fun u hu => ha u (List.mem_cons_of_mem _ hu))
        (fun u hu => hb u (List.mem_cons_of_mem _ hu)) v hv

/-! ## AES output bounds: the block function always returns 16 bytes and,
for a byte-valued key, byte values. -/

set_option maxRecDepth 4096 in
theorem sbox_good : ∀ x ∈ sbox, x < 256 := by decide

theorem sub1_lt (b : Nat) : sub1 b < 256 :=
  getD_of_all (· < 256) 0 (by decide) sbox sbox_good b

theorem good_subWord (w : GoBytes) : GoodBytes (subWord w) := by
  intro x hx
  obtain ⟨y, _, rfl⟩ := List.mem_map.mp hx
  exact sub1_lt y

theorem good_subBytes (s : GoBytes) : GoodBytes (subBytes s) := by
  intro x hx
  obtain ⟨y, _, rfl⟩ := List.mem_map.mp hx
  exact sub1_lt y

theorem xtime_lt (b : Nat) : xtime b < 256 := Nat.mod_lt _ (by decide)

theorem rconByte_lt : ∀ n, rconByte n < 256
  | 0 => by decide
  | 1 => by decide
  | _ + 2 => xtime_lt _

theorem good_getD {s : GoBytes} (hs : GoodBytes s) (i : Nat) : s.getD i 0 < 256 :=
  getD_of_all (· < 256) 0 (by decide) s hs i

theorem good_shiftRows {s : GoBytes} (hs : GoodBytes s) : GoodBytes (shiftRows s) := by
  intro x hx
  obtain ⟨i, _, rfl⟩ := List.mem_map.mp hx
  exact good_getD hs _

theorem good_mixColumn {a0 a1 a2 a3 : Nat} (h0 : a0 < 256) (h1 : a1 < 256)
    (h2 : a2 < 256) (h3 : a3 < 256) : GoodBytes (mixColumn a0 a1 a2 a3) := by
  intro x hx
  simp only [mixColumn, List.mem_cons, List.not_mem_nil, or_false] at hx
  rcases hx with rfl | rfl | rfl | rfl <;>
  · repeat' apply xor_lt_256
    all_goals first | exact xtime_lt _ | assumption

theorem good_mixColumns {s : GoBytes} (hs : GoodBytes s) : GoodBytes (mixColumns s) := by
  intro x hx
  have hg : ∀ i, s.getD i 0 < 256 := good_getD hs
  simp only [mixColumns, List.append_assoc, List.mem_append] at hx
  rcases hx with hx | hx | hx | hx <;>
    exact good_mixColumn (hg _) (hg _) (hg _) (hg _) x hx

theorem length_addRoundKey (s rk : GoBytes) : (addRoundKey s rk).length = 16 := by
  simp [addRoundKey]

theorem good_addRoundKey {s rk : GoBytes} (hs : GoodBytes s) (hrk : GoodBytes rk) :
    GoodBytes (addRoundKey s rk) := by
  intro x hx
  obtain ⟨i, _, rfl⟩ := List.mem_map.mp hx
  exact xor_lt_256 (good_getD hs i) (good_getD hrk i)

theorem good_getD_word {ws : List GoBytes} (h : GoodWords ws) (i : Nat) :
    GoodBytes (ws.getD i []) :=
  getD_of_all GoodBytes [] (by intro x hx; simp at hx) ws h i

theorem good_toWords : ∀ (n : Nat) (key : GoBytes), GoodBytes key →
    GoodWords (toWords n key)
  | 0, _, _ => by intro w hw; simp [toWords] at hw
  | _ + 1, [], _ => by intro w hw; simp [toWords] at hw
  | n + 1, k :: ks, hk => by
    intro w hw
    rw [show toWords (n + 1) (k :: ks) =
      (k :: ks).take 4 :: toWords n ((k :: ks).drop 4) from rfl] at hw
    rcases List.mem_cons.mp hw with rfl | hw
    · exact fun x hx => hk x (List.mem_of_mem_take hx)
    · exact good_toWords n _ (fun x hx => hk x (List.mem_of_mem_drop hx)) w hw

theorem good_expandLoop (nk : Nat) :
    ∀ n ws, GoodWords ws → GoodWords (expandLoop nk n ws)
  | 0, ws, h => h
  | n + 1, ws, h => by
    rw [expandLoop]
    refine good_expandLoop nk n _ ?_
    intro w hw
    rcases List.mem_append.mp hw with hw | hw
    · exact h w hw
    · have hrot : GoodBytes (rotWord (ws.getD (ws.length - 1) [])) := by
        intro x hx
        rcases List.mem_append.mp hx with hx | hx
        · exact good_getD_word h _ x (List.mem_of_mem_drop hx)
        · exact good_getD_word h _ x (List.mem_of_mem_take hx)
      rcases List.mem_singleton.mp hw with rfl
      refine good_zipXor (good_getD_word h _) ?_
      by_cases h0 : ws.length % nk = 0
      · simp only [h0, if_true]
        refine good_zipXor (good_subWord _) ?_
        intro x hx
        rcases List.mem_cons.mp hx with rfl | hx
        · exact rconByte_lt _
        · simp at hx
          rcases hx with rfl | rfl | rfl <;> decide
      · simp only [h0, if_false]
        by_cases h4 : 6 < nk ∧ ws.length % nk = 4
        · simp only [h4, if_true]
          exact good_subWord _
        · simp only [h4, if_false]
          exact good_getD_word h _

theorem good_keySchedule {key : GoBytes} (hk : GoodBytes key) :
    GoodWords (keySchedule key) :=
  good_expandLoop _ _ _ (good_toWords _ key hk)

theorem good_roundKey {ws : List GoBytes} (h : GoodWords ws) (r : Nat) :
    GoodBytes (roundKey ws r) := by
  intro x hx
  simp only [roundKey, List.append_assoc, List.mem_append] at hx
  rcases hx with hx | hx | hx | hx <;> exact good_getD_word h _ x hx

theorem length_aesEncryptBlock (key block : GoBytes) :
    (aesEncryptBlock key block).length = 16 :=
  length_addRoundKey _ _

theorem good_aesEncryptBlock {key : GoBytes} (hk : GoodBytes key) (block : GoBytes) :
    GoodBytes (aesEncryptBlock key block) :=
  good_addRoundKey (good_shiftRows (good_subBytes _))
    (good_roundKey (good_keySchedule hk) _)

/-! ## CFB mode lemmas: length preservation, round-trip, keystream shape. -/

theorem zipWith_split (f : Nat → Nat → Nat) :
    ∀ (a b c : List Nat), List.zipWith f c (a ++ b) =
      List.zipWith f (c.take a.length) a ++ List.zipWith f (c.drop a.length) b
  | [], _, c => by simp
  | _ :: _, _, [] => by simp
  | x :: a, b, y :: c => by
    simpa using zipWith_split f a b c

theorem good_take {l : GoBytes} (h : GoodBytes l) (n : Nat) : GoodBytes (l.take n) :=
  fun x hx => h x (List.mem_of_mem_take hx)

theorem good_drop {l : GoBytes} (h : GoodBytes l) (n : Nat) : GoodBytes (l.drop n) :=
  fun x hx => h x (List.mem_of_mem_drop hx)

theorem good_append {a b : GoBytes} (ha : GoodBytes a) (hb : GoodBytes b) :
    GoodBytes (a ++ b) := by
  intro x hx
  rcases List.mem_append.mp hx with hx | hx
  · exact ha x hx
  · exact hb x hx

theorem cfbEncBody_nil (E : GoBytes → GoBytes) (reg : GoBytes) :
    ∀ n, cfbEncBody E n reg [] = []
  | 0 => rfl
  | _ + 1 => by simp [cfbEncBody]

theorem cfbDecBody_nil (E : GoBytes → GoBytes) (reg : GoBytes) :
    ∀ n, cfbDecBody E n reg [] = []
  | 0 => rfl
  | _ + 1 => by simp [cfbDecBody]

theorem cfbEncBody_length {E : GoBytes → GoBytes} (hE : ∀ b, (E b).length = 16) :
    ∀ (n : Nat) (reg p : GoBytes), p.length ≤ n →
      (cfbEncBody E n reg p).length = p.length
  | 0, _, p, h => by
    rw [List.length_eq_zero.mp (Nat.le_zero.mp h)]; rfl
  | n + 1, reg, p, h => by
    by_cases hp : p.isEmpty
    · rw [List.isEmpty_iff.mp hp]; simp [cfbEncBody]
    · have hne : p ≠ [] := fun hh => hp (by simp [hh])
      have hlen : 1 ≤ p.length := List.length_pos.mpr hne
      rw [show cfbEncBody E (n + 1) reg p =
        zipXor (p.take 16) (E reg) ++
          cfbEncBody E n (zipXor (p.take 16) (E reg)) (p.drop 16) by
        simp [cfbEncBody, hp]]
      rw [List.length_append, length_zipXor,
        cfbEncBody_length hE n _ _ (by simp; omega)]
      simp [hE reg]
      omega

theorem cfbDecBody_length {E : GoBytes → GoBytes} (hE : ∀ b, (E b).length = 16) :
    ∀ (n : Nat) (reg ct : GoBytes), ct.length ≤ n →
      (cfbDecBody E n reg ct).length = ct.length
  | 0, _, ct, h => by
    rw [List.length_eq_zero.mp (Nat.le_zero.mp h)]; rfl
  | n + 1, reg, ct, h => by
    by_cases hc : ct.isEmpty
    · rw [List.isEmpty_iff.mp hc]; simp [cfbDecBody]
    · have hne : ct ≠ [] := fun hh => hc (by simp [hh])
      have hlen : 1 ≤ ct.length := List.length_pos.mpr hne
      rw [show cfbDecBody E (n + 1) reg ct =
        zipXor (ct.take 16) (E reg) ++
          cfbDecBody E n (ct.take 16) (ct.drop 16) by
        simp [cfbDecBody, hc]]
      rw [List.length_append, length_zipXor,
        cfbDecBody_length hE n _ _ (by simp; omega)]
      simp [hE reg]
      omega

theorem cfb_roundtrip {E : GoBytes → GoBytes} (hE : ∀ b, (E b).length = 16) :
    ∀ (n m : Nat) (reg p : GoBytes), p.length ≤ n → p.length ≤ m →
      cfbDecBody E m reg (cfbEncBody E n reg p) = p
  | 0, m, reg, p, hn, _ => by
    rw [List.length_eq_zero.mp (Nat.le_zero.mp hn)]
    exact cfbDecBody_nil E reg m
  | n + 1, m, reg, p, hn, hm => by
    by_cases hp : p.isEmpty
    · rw [List.isEmpty_iff.mp hp, cfbEncBody_nil]
      exact cfbDecBody_nil E reg m
    · have hne : p ≠ [] := fun hh => hp (by simp [hh])
      have hlen : 1 ≤ p.length := List.length_pos.mpr hne
      obtain ⟨m', rfl⟩ : ∃ m', m = m' + 1 := ⟨m - 1, by omega⟩
      have henc : cfbEncBody E (n + 1) reg p =
          zipXor (p.take 16) (E reg) ++
            cfbEncBody E n (zipXor (p.take 16) (E reg)) (p.drop 16) := by
        simp [cfbEncBody, hp]
      set c := zipXor (p.take 16) (E reg) with hc
      have hclen : c.length = min 16 p.length := by
        rw [hc, length_zipXor, hE reg]
        simp
      have hcne : ¬(c ++ cfbEncBody E n c (p.drop 16)).isEmpty := by
        simp only [List.isEmpty_iff, List.append_eq_nil]
        rintro ⟨hc0, -⟩
        rw [hc0] at hclen
        simp at hclen
        omega
      have hdec : cfbDecBody E (m' + 1) reg (c ++ cfbEncBody E n c (p.drop 16)) =
          zipXor ((c ++ cfbEncBody E n c (p.drop 16)).take 16) (E reg) ++
            cfbDecBody E m' ((c ++ cfbEncBody E n c (p.drop 16)).take 16)
              ((c ++ cfbEncBody E n c (p.drop 16)).drop 16) := by
        simp [cfbDecBody, hcne]
      by_cases h16 : 16 ≤ p.length
      · have hc16 : c.length = 16 := by omega
        have htake : (c ++ cfbEncBody E n c (p.drop 16)).take 16 = c := by
          rw [← hc16]; exact List.take_left _ _
        have hdrop : (c ++ cfbEncBody E n c (p.drop 16)).drop 16 =
            cfbEncBody E n c (p.drop 16) := by
          rw [← hc16]; exact List.drop_left _ _
        rw [henc, hdec, htake, hdrop, hc,
          zipXor_cancel_right _ _ (by rw [hE reg]; simp),
          cfb_roundtrip hE n m' _ _ (by simp; omega) (by simp; omega)]
        exact List.take_append_drop 16 p
      · have htp : p.take 16 = p := List.take_of_length_le (by omega)
        have hdp : p.drop 16 = [] := List.drop_eq_nil_of_le (by omega)
        have hrec : cfbEncBody E n c (p.drop 16) = [] := by
          rw [hdp]; exact cfbEncBody_nil E c n
        have htake : (c ++ cfbEncBody E n c (p.drop 16)).take 16 = c := by
          rw [hrec, List.append_nil]
          exact List.take_of_length_le (by omega)
        have hdrop : (c ++ cfbEncBody E n c (p.drop 16)).drop 16 = [] := by
          rw [hrec, List.append_nil]
          exact List.drop_eq_nil_of_le (by omega)
        rw [henc, hdec, htake, hdrop, cfbDecBody_nil, List.append_nil, hc, htp,
          zipXor_cancel_right _ _ (by rw [hE reg]; omega)]

theorem cfbDecBody_eq_keystream {E : GoBytes → GoBytes} (hE : ∀ b, (E b).length = 16) :
    ∀ (n : Nat) (reg ct : GoBytes),
      cfbDecBody E n reg ct = zipXor ct (cfbKeystream E n reg ct)
  | 0, _, ct => by simp [cfbDecBody, cfbKeystream, zipXor]
  | n + 1, reg, ct => by
    by_cases hc : ct.isEmpty
    · rw [List.isEmpty_iff.mp hc]; simp [cfbDecBody, cfbKeystream, zipXor]
    · have h1 : cfbDecBody E (n + 1) reg ct =
          zipXor (ct.take 16) (E reg) ++ cfbDecBody E n (ct.take 16) (ct.drop 16) := by
        simp [cfbDecBody, hc]
      have h2 : cfbKeystream E (n + 1) reg ct =
          E reg ++ cfbKeystream E n (ct.take 16) (ct.drop 16) := by
        simp [cfbKeystream, hc]
      rw [h1, h2, cfbDecBody_eq_keystream hE n (ct.take 16) (ct.drop 16)]
      simp only [zipXor]
      rw [zipWith_split Nat.xor (E reg) (cfbKeystream E n (ct.take 16) (ct.drop 16)) ct,
        hE reg]

theorem good_cfbEncBody {E : GoBytes → GoBytes} (hgE : ∀ b, GoodBytes (E b)) :
    ∀ (n : Nat) (reg p : GoBytes), GoodBytes p → GoodBytes (cfbEncBody E n reg p)
  | 0, _, _, _ => by intro x hx; simp [cfbEncBody] at hx
  | n + 1, reg, p, hp => by
    by_cases hemp : p.isEmpty
    · rw [List.isEmpty_iff.mp hemp, cfbEncBody_nil]
      intro x hx; simp at hx
    · rw [show cfbEncBody E (n + 1) reg p =
        zipXor (p.take 16) (E reg) ++
          cfbEncBody E n (zipXor (p.take 16) (E reg)) (p.drop 16) by
        simp [cfbEncBody, hemp]]
      exact good_append (good_zipXor (good_take hp 16) (hgE reg))
        (good_cfbEncBody hgE n _ _ (good_drop hp 16))

/-! ## GCM mode lemmas: lengths, round-trip, tag mismatch on tampering. -/

theorem natToBlock_length (n : Nat) : (natToBlock n).length = 16 := by
  simp [natToBlock]

theorem good_natToBlock (n : Nat) : GoodBytes (natToBlock n) := by
  intro x hx
  simp only [natToBlock, List.mem_map, List.mem_range] at hx
  obtain ⟨i, -, rfl⟩ := hx
  exact Nat.mod_lt _ (by decide)

theorem ctrBlocks_length {E : GoBytes → GoBytes} (hE : ∀ b, (E b).length = 16) :
    ∀ (n : Nat) (cb : GoBytes), (ctrBlocks E n cb).length = 16 * n
  | 0, _ => rfl
  | n + 1, cb => by
    rw [ctrBlocks, List.length_append, hE cb, ctrBlocks_length hE n (inc32 cb)]
    ring

theorem good_ctrBlocks {E : GoBytes → GoBytes} (hgE : ∀ b, GoodBytes (E b)) :
    ∀ (n : Nat) (cb : GoBytes), GoodBytes (ctrBlocks E n cb)
  | 0, _ => by intro x hx; simp [ctrBlocks] at hx
  | n + 1, cb => by
    rw [ctrBlocks]
    exact good_append (hgE cb) (good_ctrBlocks hgE n (inc32 cb))

theorem gctr_length (key cb p : GoBytes) : (gctr key cb p).length = p.length := by
  rw [gctr, length_zipXor, ctrBlocks_length (fun b => length_aesEncryptBlock key b)]
  omega

theorem gctr_gctr (key cb p : GoBytes) : gctr key cb (gctr key cb p) = p := by
  conv_lhs => rw [gctr, gctr_length key cb p]
  rw [gctr]
  exact zipXor_cancel_right p _ (by
    rw [ctrBlocks_length (fun b => length_aesEncryptBlock key b)]; omega)

theorem good_gctr {key : GoBytes} (hk : GoodBytes key) {p : GoBytes}
    (hp : GoodBytes p) (cb : GoBytes) : GoodBytes (gctr key cb p) :=
  good_zipXor hp (good_ctrBlocks (fun b => good_aesEncryptBlock hk b) _ _)

theorem gcmAuth_length (key nonce ct : GoBytes) : (gcmAuth key nonce ct).length = 16 := by
  rw [gcmAuth, length_zipXor, natToBlock_length, length_aesEncryptBlock]
  simp

theorem good_gcmAuth {key : GoBytes} (hk : GoodBytes key) (nonce ct : GoBytes) :
    GoodBytes (gcmAuth key nonce ct) :=
  good_zipXor (good_natToBlock _) (good_aesEncryptBlock hk _)

theorem gcmSeal_length (key nonce p : GoBytes) :
    (gcmSeal key nonce p).length = p.length + 16 := by
  rw [gcmSeal, List.length_append, gctr_length, gcmAuth_length]

theorem good_gcmSeal {key : GoBytes} (hk : GoodBytes key) {p : GoBytes}
    (hp : GoodBytes p) (nonce : GoBytes) : GoodBytes (gcmSeal key nonce p) :=
  good_append (good_gctr hk hp _) (good_gcmAuth hk _ _)

theorem gcm_roundtrip (key nonce p : GoBytes) :
    gcmOpen key nonce (gcmSeal key nonce p) = .ok p := by
  have hctlen : (gctr key (inc32 (gcmJ0 nonce)) p).length = p.length := gctr_length _ _ _
  have hlen : (gcmSeal key nonce p).length = p.length + 16 := gcmSeal_length _ _ _
  rw [gcmOpen, if_neg (by omega)]
  have htake : (gcmSeal key nonce p).take ((gcmSeal key nonce p).length - 16) =
      gctr key (inc32 (gcmJ0 nonce)) p := by
    rw [hlen, gcmSeal, Nat.add_sub_cancel, ← hctlen]
    exact List.take_left _ _
  have hdrop : (gcmSeal key nonce p).drop ((gcmSeal key nonce p).length - 16) =
      gcmAuth key nonce (gctr key (inc32 (gcmJ0 nonce)) p) := by
    rw [hlen, gcmSeal, Nat.add_sub_cancel, ← hctlen]
    exact List.drop_left _ _
  rw [htake, hdrop, if_pos rfl, gctr_gctr]

theorem exists_concat {l : GoBytes} (h : l ≠ []) : ∃ ys y, l = ys ++ [y] :=
  ⟨l.dropLast, l.getLast h, (List.dropLast_append_getLast h).symm⟩

theorem bumpLast_concat (xs : GoBytes) (x : Nat) :
    bumpLast (xs ++ [x]) = xs ++ [(x + 1) % 256] := by
  simp [bumpLast]

theorem bumpLast_length {l : GoBytes} (h : l ≠ []) : (bumpLast l).length = l.length := by
  obtain ⟨ys, y, rfl⟩ := exists_concat h
  rw [bumpLast_concat]
  simp

theorem bumpLast_ne {l : GoBytes} (h : l ≠ []) : bumpLast l ≠ l := by
  obtain ⟨ys, y, rfl⟩ := exists_concat h
  rw [bumpLast_concat]
  intro hEq
  have h2 : (y + 1) % 256 = y := by
    have := List.append_cancel_left hEq
    simpa using this
  omega

theorem bumpLast_append {a b : GoBytes} (h : b ≠ []) :
    bumpLast (a ++ b) = a ++ bumpLast b := by
  obtain ⟨ys, y, rfl⟩ := exists_concat h
  rw [show a ++ (ys ++ [y]) = (a ++ ys) ++ [y] from (List.append_assoc a ys [y]).symm,
    bumpLast_concat, bumpLast_concat, List.append_assoc]

/-- Tampering with the last byte of a sealed GCM message makes `gcm.Open`
fail the tag comparison. -/
theorem gcm_tamper (key nonce p : GoBytes) :
    gcmOpen key nonce (bumpLast (gcmSeal key nonce p)) = .err .authFailed := by
  have htagne : gcmAuth key nonce (gctr key (inc32 (gcmJ0 nonce)) p) ≠ [] := by
    intro hEq
    have := congrArg List.length hEq
    rw [gcmAuth_length] at this
    simp at this
  have hctlen : (gctr key (inc32 (gcmJ0 nonce)) p).length = p.length := gctr_length _ _ _
  have htaglen : (gcmAuth key nonce (gctr key (inc32 (gcmJ0 nonce)) p)).length = 16 :=
    gcmAuth_length _ _ _
  rw [gcmSeal, bumpLast_append htagne]
  set ct := gctr key (inc32 (gcmJ0 nonce)) p with hct
  set tag := gcmAuth key nonce ct with htag
  have hbl : (bumpLast tag).length = 16 := by rw [bumpLast_length htagne]; exact htaglen
  have hlen : (ct ++ bumpLast tag).length = p.length + 16 := by
    rw [List.length_append, hctlen, hbl]
  rw [gcmOpen, if_neg (by omega)]
  have htake : (ct ++ bumpLast tag).take ((ct ++ bumpLast tag).length - 16) = ct := by
    rw [hlen, Nat.add_sub_cancel, ← hctlen]
    exact List.take_left _ _
  have hdrop : (ct ++ bumpLast tag).drop ((ct ++ bumpLast tag).length - 16) =
      bumpLast tag := by
    rw [hlen, Nat.add_sub_cancel, ← hctlen]
    exact List.drop_left _ _
  rw [htake, hdrop, if_neg]
  intro hEq
  exact bumpLast_ne htagne (by rw [← htag] at hEq; rw [← hEq])

/-! ## base64 lemmas: an encoded message decodes back to its bytes. -/

theorem b64Idx_b64Char {v : Nat} (hv : v < 64) : b64Idx (b64Char v) = some v := by
  revert v hv; decide

theorem b64Char_ne_pad {v : Nat} (hv : v < 64) : b64Char v ≠ 61 := by
  revert v hv; decide

theorem b64Char_ne_nl {v : Nat} (hv : v < 64) : ¬(b64Char v = 10 ∨ b64Char v = 13) := by
  revert v hv; decide

theorem pad_ne_nl : ¬((61 : Nat) = 10 ∨ (61 : Nat) = 13) := by decide

theorem quantum_full {x y z w : Nat} (hx : x < 64) (hy : y < 64) (hz : z < 64)
    (hw : w < 64) (rest : GoBytes) :
    b64DecodeQuantums (b64Char x :: b64Char y :: b64Char z :: b64Char w :: rest) =
      (b64DecodeQuantums rest).map
        (fun tl => (x * 4 + y / 16) :: (y % 16 * 16 + z / 4) :: (z % 4 * 64 + w) :: tl) := by
  simp [b64DecodeQuantums, b64Idx_b64Char hx, b64Idx_b64Char hy, b64Idx_b64Char hz,
    b64Idx_b64Char hw, b64Pad, b64Char_ne_pad hz, b64Char_ne_pad hw]

theorem quantum_pad2 {x y : Nat} (hx : x < 64) (hy : y < 64) :
    b64DecodeQuantums [b64Char x, b64Char y, 61, 61] = some [x * 4 + y / 16] := by
  simp [b64DecodeQuantums, b64Idx_b64Char hx, b64Idx_b64Char hy, b64Pad]

theorem quantum_pad1 {x y z : Nat} (hx : x < 64) (hy : y < 64) (hz : z < 64) :
    b64DecodeQuantums [b64Char x, b64Char y, b64Char z, 61] =
      some [x * 4 + y / 16, y % 16 * 16 + z / 4] := by
  simp [b64DecodeQuantums, b64Idx_b64Char hx, b64Idx_b64Char hy, b64Idx_b64Char hz,
    b64Pad, b64Char_ne_pad hz]

theorem b64Encode_mem : ∀ (bs : GoBytes), GoodBytes bs →
    ∀ x ∈ b64Encode bs, (∃ v, v < 64 ∧ x = b64Char v) ∨ x = 61
  | [], _ => by intro x hx; simp [b64Encode] at hx
  | [a], h => by
    intro x hx
    have ha : a < 256 := h a (by simp)
    simp only [b64Encode, List.mem_cons, List.not_mem_nil, or_false] at hx
    rcases hx with rfl | rfl | rfl | rfl
    · exact .inl ⟨a / 4, by omega, rfl⟩
    · exact .inl ⟨a % 4 * 16, by omega, rfl⟩
    · exact .inr rfl
    · exact .inr rfl
  | [a, b], h => by
    intro x hx
    have ha : a < 256 := h a (by simp)
    have hb : b < 256 := h b (by simp)
    simp only [b64Encode, List.mem_cons, List.not_mem_nil, or_false] at hx
    rcases hx with rfl | rfl | rfl | rfl
    · exact .inl ⟨a / 4, by omega, rfl⟩
    · exact .inl ⟨a % 4 * 16 + b / 16, by omega, rfl⟩
    · exact .inl ⟨b % 16 * 4, by omega, rfl⟩
    · exact .inr rfl
  | a :: b :: c :: rest, h => by
    intro x hx
    have ha : a < 256 := h a (by simp)
    have hb : b < 256 := h b (by simp)
    have hc : c < 256 := h c (by simp)
    rw [show b64Encode (a :: b :: c :: rest) =
      b64Char (a / 4) :: b64Char (a % 4 * 16 + b / 16) ::
        b64Char (b % 16 * 4 + c / 64) :: b64Char (c % 64) :: b64Encode rest from rfl] at hx
    simp only [List.mem_cons] at hx
    rcases hx with rfl | rfl | rfl | rfl | hx
    · exact .inl ⟨a / 4, by omega, rfl⟩
    · exact .inl ⟨a % 4 * 16 + b / 16, by omega, rfl⟩
    · exact .inl ⟨b % 16 * 4 + c / 64, by omega, rfl⟩
    · exact .inl ⟨c % 64, by omega, rfl⟩
    · exact b64Encode_mem rest
        (fun u hu => h u (by simp [hu])) x hx

theorem b64Encode_filter (bs : GoBytes) (h : GoodBytes bs) :
    (b64Encode bs).filter (fun c => ¬(c = 10 ∨ c = 13)) = b64Encode bs := by
  rw [List.filter_eq_self]
  intro x hx
  rcases b64Encode_mem bs h x hx with ⟨v, hv, rfl⟩ | rfl
  · exact decide_eq_true (b64Char_ne_nl hv)
  · exact decide_eq_true pad_ne_nl

theorem b64DecodeQuantums_encode : ∀ (bs : GoBytes), GoodBytes bs →
    b64DecodeQuantums (b64Encode bs) = some bs
  | [], _ => rfl
  | [a], h => by
    have ha : a < 256 := h a (by simp)
    rw [show b64Encode [a] = [b64Char (a / 4), b64Char (a % 4 * 16), 61, 61] from rfl,
      quantum_pad2 (by omega) (by omega)]
    congr 2
    omega
  | [a, b], h => by
    have ha : a < 256 := h a (by simp)
    have hb : b < 256 := h b (by simp)
    rw [show b64Encode [a, b] =
      [b64Char (a / 4), b64Char (a % 4 * 16 + b / 16), b64Char (b % 16 * 4), 61] from rfl,
      quantum_pad1 (by omega) (by omega) (by omega)]
    congr 1
    have h1 : a / 4 * 4 + (a % 4 * 16 + b / 16) / 16 = a := by omega
    have h2 : (a % 4 * 16 + b / 16) % 16 * 16 + b % 16 * 4 / 4 = b := by omega
    rw [h1, h2]
  | a :: b :: c :: rest, h => by
    have ha : a < 256 := h a (by simp)
    have hb : b < 256 := h b (by simp)
    have hc : c < 256 := h c (by simp)
    rw [show b64Encode (a :: b :: c :: rest) =
      b64Char (a / 4) :: b64Char (a % 4 * 16 + b / 16) ::
        b64Char (b % 16 * 4 + c / 64) :: b64Char (c % 64) :: b64Encode rest from rfl,
      quantum_full (by omega) (by omega) (by omega) (by omega),
      b64DecodeQuantums_encode rest (fun u hu => h u (by simp [hu]))]
    simp only [Option.map_some']
    congr 1
    have h1 : a / 4 * 4 + (a % 4 * 16 + b / 16) / 16 = a := by omega
    have h2 : (a % 4 * 16 + b / 16) % 16 * 16 + (b % 16 * 4 + c / 64) / 4 = b := by omega
    have h3 : (b % 16 * 4 + c / 64) % 4 * 64 + c % 64 = c := by omega
    rw [h1, h2, h3]

theorem b64_encode_decode (bs : GoBytes) (h : GoodBytes bs) :
    b64Decode (b64Encode bs) = some bs := by
  rw [b64Decode, b64Encode_filter bs h, b64DecodeQuantums_encode bs h]

/-! ## Cipher-level helper lemmas. -/

theorem NewCFBCipher_key {secret : GoBytes} {c : CFBCipher}
    (h : NewCFBCipher secret = .ok c) : c.key = secret := by
  obtain ⟨k⟩ := c
  by_cases hv : secret.length = 16 ∨ secret.length = 24 ∨ secret.length = 32
  · simp [NewCFBCipher, aesNewCipher, obind, hv] at h
    simpa using h.symm
  · simp [NewCFBCipher, aesNewCipher, obind, hv] at h

theorem NewGCMCipher_key {secret : GoBytes} {c : GCMCipher}
    (h : NewGCMCipher secret = .ok c) : c.key = secret := by
  obtain ⟨k⟩ := c
  by_cases hv : secret.length = 16 ∨ secret.length = 24 ∨ secret.length = 32
  · simp [NewGCMCipher, aesNewCipher, obind, hv] at h
    simpa using h.symm
  · simp [NewGCMCipher, aesNewCipher, obind, hv] at h

theorem cfbEncrypt_eq (c : CFBCipher) {rnd : GoBytes} (h : 16 ≤ rnd.length)
    (p : GoBytes) : c.Encrypt rnd p =
      .ok (rnd.take 16 ++ cfbEncBody (aesEncryptBlock c.key) (p.length + 1) (rnd.take 16) p) := by
  rw [CFBCipher.Encrypt, readFull, if_pos h]

theorem cfbDecrypt_encrypt (c : CFBCipher) {rnd : GoBytes} (h : 16 ≤ rnd.length)
    (p : GoBytes) : ∃ ct, c.Encrypt rnd p = .ok ct ∧ c.Decrypt ct = .ok p := by
  have hE : ∀ b, (aesEncryptBlock c.key b).length = 16 :=
    fun b => length_aesEncryptBlock c.key b
  set iv := rnd.take 16 with hiv
  set body := cfbEncBody (aesEncryptBlock c.key) (p.length + 1) iv p with hbody
  have hivlen : iv.length = 16 := by
    rw [hiv, List.length_take]
    omega
  have hbodylen : body.length = p.length :=
    cfbEncBody_length hE _ _ _ (Nat.le_succ _)
  refine ⟨iv ++ body, cfbEncrypt_eq c h p, ?_⟩
  have hctlen : (iv ++ body).length = 16 + p.length := by
    rw [List.length_append, hivlen, hbodylen]
  rw [CFBCipher.Decrypt, if_neg (by omega)]
  have htake : (iv ++ body).take 16 = iv := by
    rw [← hivlen]; exact List.take_left _ _
  have hdrop : (iv ++ body).drop 16 = body := by
    rw [← hivlen]; exact List.drop_left _ _
  rw [htake, hdrop, hbody,
    cfb_roundtrip hE (p.length + 1) ((iv ++ body).length + 1) iv p (Nat.le_succ _)
      (by omega)]

theorem gcmEncrypt_eq (c : GCMCipher) {rnd : GoBytes} (h : 12 ≤ rnd.length)
    (p : GoBytes) :
    c.Encrypt rnd p = .ok (rnd.take 12 ++ gcmSeal c.key (rnd.take 12) p) := by
  rw [GCMCipher.Encrypt, readFull, if_pos h]

theorem gcmDecrypt_encrypt (c : GCMCipher) {nonce : GoBytes} (h12 : nonce.length = 12)
    (p : GoBytes) : c.Decrypt (nonce ++ gcmSeal c.key nonce p) = .ok p := by
  have hslen : (gcmSeal c.key nonce p).length = p.length + 16 := gcmSeal_length _ _ _
  have hlen : (nonce ++ gcmSeal c.key nonce p).length = 12 + (p.length + 16) := by
    rw [List.length_append, h12, hslen]
  rw [GCMCipher.Decrypt, if_neg (by omega)]
  have htake : (nonce ++ gcmSeal c.key nonce p).take 12 = nonce := by
    rw [← h12]; exact List.take_left _ _
  have hdrop : (nonce ++ gcmSeal c.key nonce p).drop 12 = gcmSeal c.key nonce p := by
    rw [← h12]; exact List.drop_left _ _
  rw [htake, hdrop, gcm_roundtrip]

theorem gcmDecrypt_tampered (c : GCMCipher) {nonce : GoBytes} (h12 : nonce.length = 12)
    (p : GoBytes) :
    c.Decrypt (bumpLast (nonce ++ gcmSeal c.key nonce p)) = .err .authFailed := by
  have hslen : (gcmSeal c.key nonce p).length = p.length + 16 := gcmSeal_length _ _ _
  have hne : gcmSeal c.key nonce p ≠ [] := by
    intro hEq
    rw [hEq] at hslen
    simp at hslen
  rw [bumpLast_append hne]
  have hblen : (bumpLast (gcmSeal c.key nonce p)).length = p.length + 16 := by
    rw [bumpLast_length hne, hslen]
  have hlen : (nonce ++ bumpLast (gcmSeal c.key nonce p)).length = 12 + (p.length + 16) := by
    rw [List.length_append, h12, hblen]
  rw [GCMCipher.Decrypt, if_neg (by omega)]
  have htake : (nonce ++ bumpLast (gcmSeal c.key nonce p)).take 12 = nonce := by
    rw [← h12]; exact List.take_left _ _
  have hdrop : (nonce ++ bumpLast (gcmSeal c.key nonce p)).drop 12 =
      bumpLast (gcmSeal c.key nonce p) := by
    rw [← h12]; exact List.drop_left _ _
  rw [htake, hdrop, gcm_tamper]

/-! ## Claim theorems. -/

/-- Claim C9: the Null (default) cipher's Encrypt and Decrypt are pure identity
functions — for every byte sequence `x` they return `x` without error. -/
theorem claim9_null_identity (x : GoBytes) :
    DefaultCipher.Encrypt x = .ok x ∧ DefaultCipher.Decrypt x = .ok x :=
  ⟨rfl, rfl⟩

/-- Claim C8: for every cipher variant, EncryptInto and DecryptInto applied to a
nil pointer or to a pointer holding the empty string leave the pointed-to value
unchanged and return success. -/
theorem claim8_empty_noop (s : GoStrPtr) (h : s = none ∨ s = some []) :
    DefaultCipher.EncryptInto s = .ok s ∧ DefaultCipher.DecryptInto s = .ok s ∧
    (∀ c : CFBCipher, c.EncryptInto s = .ok s ∧ c.DecryptInto s = .ok s) ∧
    (∀ c : GCMCipher, c.EncryptInto s = .ok s ∧ c.DecryptInto s = .ok s) ∧
    Base64Cipher.EncryptInto s = .ok s ∧ Base64Cipher.DecryptInto s = .ok s := by
  rcases h with rfl | rfl <;>
    exact ⟨rfl, rfl, fun _ => ⟨rfl, rfl⟩, fun _ => ⟨rfl, rfl⟩, rfl, rfl⟩

/-- Claim C8 witness: the empty-string case evaluated on concrete ciphers. -/
theorem claim8_witness :
    DefaultCipher.EncryptInto (some []) = .ok (some []) ∧
    DefaultCipher.DecryptInto (some []) = .ok (some []) ∧
    (∀ c : CFBCipher, c.EncryptInto (some []) = .ok (some []) ∧
      c.DecryptInto (some []) = .ok (some [])) ∧
    (∀ c : GCMCipher, c.EncryptInto (some []) = .ok (some []) ∧
      c.DecryptInto (some []) = .ok (some [])) ∧
    Base64Cipher.EncryptInto (some []) = .ok (some []) ∧
    Base64Cipher.DecryptInto (some []) = .ok (some []) :=
  claim8_empty_noop (some []) (.inr rfl)

/-- Claim C1 is refuted by the code (a Go method-promotion bug): the in-place
helpers inherited from the embedded `DefaultCipher` run with the embedded value
as receiver, so they call the identity `DefaultCipher.Encrypt`/`Decrypt`, not
the concrete variant's transforms.  On a non-empty string they leave the
contents unchanged, while the concrete CFB Encrypt of the same bytes (with
entropy available) produces a different, 17-byte result. -/
theorem claim1_into_not_dispatched :
    CFBCipher.EncryptInto ⟨List.replicate 16 0⟩ (some [65]) = .ok (some [65]) ∧
    CFBCipher.DecryptInto ⟨List.replicate 16 0⟩ (some [65]) = .ok (some [65]) ∧
    GCMCipher.EncryptInto ⟨List.replicate 32 0⟩ (some [65]) = .ok (some [65]) ∧
    GCMCipher.DecryptInto ⟨List.replicate 32 0⟩ (some [65]) = .ok (some [65]) ∧
    Base64Cipher.EncryptInto (some [65]) = .ok (some [65]) ∧
    Base64Cipher.DecryptInto (some [65]) = .ok (some [65]) ∧
    CFBCipher.Encrypt ⟨List.replicate 16 0⟩ (List.replicate 16 0) [65] ≠ .ok [65] := by
  refine ⟨rfl, rfl, rfl, rfl, rfl, rfl, ?_⟩
  rw [cfbEncrypt_eq _ (by decide)]
  intro hEq
  have := congrArg List.length (Outcome.ok.inj hEq)
  rw [List.length_append,
    cfbEncBody_length (fun b => length_aesEncryptBlock _ b) _ _ _ (Nat.le_succ _)] at this
  simp at this

/-- Claim C2 is refuted by the code: `GCMCipher.Decrypt` slices
`ciphertext[:12]` with no length check, so every input shorter than the
12-byte nonce panics with a slice-bounds error instead of returning a
`MalformedCiphertextError`. -/
theorem claim2_gcm_short_panics (c : GCMCipher) (ct : GoBytes)
    (h : ct.length < 12) : c.Decrypt ct = .panicked := by
  rw [GCMCipher.Decrypt, if_pos h]

/-- Claim C2 witness: the empty ciphertext panics on a concrete GCM cipher. -/
theorem claim2_witness :
    ([] : GoBytes).length < 12 ∧
      GCMCipher.Decrypt ⟨List.replicate 32 0⟩ [] = .panicked :=
  ⟨by decide, claim2_gcm_short_panics ⟨List.replicate 32 0⟩ [] (by decide)⟩

/-- Claim C10: the CFB and GCM constructors succeed exactly for 16-, 24- or
32-byte secrets, and fail with the key-size error (returning no instance)
for every other length. -/
theorem claim10_constructors (secret : GoBytes) :
    ((secret.length = 16 ∨ secret.length = 24 ∨ secret.length = 32) →
      NewCFBCipher secret = .ok ⟨secret⟩ ∧ NewGCMCipher secret = .ok ⟨secret⟩) ∧
    (¬(secret.length = 16 ∨ secret.length = 24 ∨ secret.length = 32) →
      NewCFBCipher secret = .err (.keySize secret.length) ∧
      NewGCMCipher secret = .err (.keySize secret.length)) := by
  constructor <;> intro h <;>
    simp [NewCFBCipher, NewGCMCipher, aesNewCipher, obind, h]

/-- Claim C10 witness: a valid 16-byte secret and an invalid 15-byte secret. -/
theorem claim10_witness :
    (NewCFBCipher (List.replicate 16 0) = .ok ⟨List.replicate 16 0⟩ ∧
      NewGCMCipher (List.replicate 16 0) = .ok ⟨List.replicate 16 0⟩) ∧
    (NewCFBCipher (List.replicate 15 0) =
        .err (.keySize (List.replicate 15 0).length) ∧
      NewGCMCipher (List.replicate 15 0) =
        .err (.keySize (List.replicate 15 0).length)) :=
  ⟨(claim10_constructors (List.replicate 16 0)).1 (by decide),
   (claim10_constructors (List.replicate 15 0)).2 (by decide)⟩

/-- Claim C6: CFB Decrypt rejects every input shorter than one 16-byte block
with the malformed-ciphertext error, and succeeds on every input of at least
16 bytes, returning the XOR of the remainder with the keystream derived from
the first 16 bytes (the IV). -/
theorem claim6_cfb_decrypt (c : CFBCipher) (ct : GoBytes) :
    (ct.length < 16 → c.Decrypt ct = .err .malformedCiphertext) ∧
    (16 ≤ ct.length → ∃ p, c.Decrypt ct = .ok p ∧
      p = zipXor (ct.drop 16)
        (cfbKeystream (aesEncryptBlock c.key) (ct.length + 1) (ct.take 16) (ct.drop 16)) ∧
      p.length = ct.length - 16) := by
  have hE : ∀ b, (aesEncryptBlock c.key b).length = 16 :=
    fun b => length_aesEncryptBlock c.key b
  constructor
  · intro h
    rw [CFBCipher.Decrypt, if_pos h]
  · intro h
    rw [CFBCipher.Decrypt, if_neg (by omega)]
    refine ⟨_, rfl, ?_, ?_⟩
    · exact cfbDecBody_eq_keystream hE _ _ _
    · rw [cfbDecBody_length hE _ _ _ (by simp; omega)]
      simp

/-- Claim C6 witness: a 3-byte input fails, a 20-byte input succeeds, on the
all-zero-key CFB cipher. -/
theorem claim6_witness :
    (([0, 0, 0] : GoBytes).length < 16 ∧
      CFBCipher.Decrypt ⟨List.replicate 16 0⟩ [0, 0, 0] = .err .malformedCiphertext) ∧
    (16 ≤ (List.replicate 20 0 : GoBytes).length ∧
      ∃ p, CFBCipher.Decrypt ⟨List.replicate 16 0⟩ (List.replicate 20 0) = .ok p ∧
        p = zipXor ((List.replicate 20 0 : GoBytes).drop 16)
          (cfbKeystream (aesEncryptBlock (CFBCipher.mk (List.replicate 16 0)).key)
            ((List.replicate 20 0 : GoBytes).length + 1)
            ((List.replicate 20 0 : GoBytes).take 16)
            ((List.replicate 20 0 : GoBytes).drop 16)) ∧
        p.length = (List.replicate 20 0 : GoBytes).length - 16) :=
  ⟨⟨by decide, (claim6_cfb_decrypt ⟨List.replicate 16 0⟩ [0, 0, 0]).1 (by decide)⟩,
   ⟨by decide, (claim6_cfb_decrypt ⟨List.replicate 16 0⟩ (List.replicate 20 0)).2 (by decide)⟩⟩

/-- Claim C7: the Base64 wrapper around any inner cipher encrypts by
inner-encrypt followed by standard padded base64 (failing only when the inner
Encrypt fails; the encoded output always decodes back), and decrypts by first
base64-decoding — failing with the malformed-ciphertext error exactly when the
input does not decode — then delegating to the inner Decrypt. -/
theorem claim7_base64 (encInner : GoBytes → GoBytes → Outcome GoBytes)
    (decInner : GoBytes → Outcome GoBytes) (rnd value ct : GoBytes) :
    (∀ e, encInner rnd value = .ok e →
      Base64Cipher.Encrypt encInner rnd value = .ok (b64Encode e) ∧
      (GoodBytes e → b64Decode (b64Encode e) = some e)) ∧
    (∀ er, encInner rnd value = .err er →
      Base64Cipher.Encrypt encInner rnd value = .err er) ∧
    (b64Decode ct = none → Base64Cipher.Decrypt decInner ct = .err .malformedCiphertext) ∧
    (∀ d, b64Decode ct = some d → Base64Cipher.Decrypt decInner ct = decInner d) := by
  refine ⟨?_, ?_, ?_, ?_⟩
  · intro e he
    rw [Base64Cipher.Encrypt, he]
    exact ⟨rfl, fun hg => b64_encode_decode e hg⟩
  · intro er he
    rw [Base64Cipher.Encrypt, he]
    rfl
  · intro hd
    rw [Base64Cipher.Decrypt, hd]
  · intro d hd
    rw [Base64Cipher.Decrypt, hd]

/-- Claim C7 witness: concrete inner ciphers and inputs exercising all four
cases (inner success with decodable output, inner failure, undecodable input,
decodable input delegated to the inner Decrypt). -/
theorem claim7_witness :
    (Base64Cipher.Encrypt (fun _ v => .ok v) [] [104, 105] = .ok (b64Encode [104, 105]) ∧
      (GoodBytes [104, 105] → b64Decode (b64Encode [104, 105]) = some [104, 105])) ∧
    Base64Cipher.Encrypt (fun _ _ => .err .entropy) [] [104, 105] = .err .entropy ∧
    Base64Cipher.Decrypt DefaultCipher.Decrypt [33] = .err .malformedCiphertext ∧
    Base64Cipher.Decrypt DefaultCipher.Decrypt [97, 71, 107, 61] =
      DefaultCipher.Decrypt [104, 105] :=
  ⟨(claim7_base64 (fun _ v => .ok v) DefaultCipher.Decrypt [] [104, 105] [33]).1
      [104, 105] rfl,
   (claim7_base64 (fun _ _ => .err .entropy) DefaultCipher.Decrypt [] [104, 105] [33]).2.1
      .entropy rfl,
   (claim7_base64 (fun _ v => .ok v) DefaultCipher.Decrypt [] [104, 105] [33]).2.2.1
      (by decide),
   (claim7_base64 (fun _ v => .ok v) DefaultCipher.Decrypt [] [104, 105]
      [97, 71, 107, 61]).2.2.2 [104, 105] (by decide)⟩

/-- Go `NewBase64Cipher` just propagates the inner constructor's result. -/
theorem NewBase64Cipher_eq {I : Type} (init : GoBytes → Outcome I) (secret : GoBytes) :
    NewBase64Cipher init secret = init secret := by
  cases h : init secret <;> simp [NewBase64Cipher, obind, h]

set_option maxRecDepth 100000 in
/-- Claim C3 counterexample: with the all-zero 16-byte secret and a caller
buffer of 17 zero bytes, `CFBCipher.Decrypt` leaves the caller's buffer
holding `IV ‖ plaintext` (its last byte becomes `0x66`), not its original
contents — the decryption is done in place, contradicting the claim that
Decrypt leaves its input buffer unchanged. -/
theorem claim3_counterexample :
    (CFBCipher.DecryptBuf ⟨List.replicate 16 0⟩ (List.replicate 17 0)).2 ≠
      List.replicate 17 0 := by decide

/-- Claim C3 amended: Encrypt allocates fresh output (in this functional model
its input is untouched by construction), but CFB Decrypt writes the plaintext
in place: on any buffer of at least one block, the caller's buffer afterwards
holds the IV followed by the recovered plaintext, and the returned slice is
that plaintext. -/
theorem claim3_amended (c : CFBCipher) (buf : GoBytes) (h : 16 ≤ buf.length) :
    ∃ plain, c.DecryptBuf buf = (.ok plain, buf.take 16 ++ plain) ∧
      c.Decrypt buf = .ok plain ∧ plain.length = buf.length - 16 := by
  have hE : ∀ b, (aesEncryptBlock c.key b).length = 16 :=
    fun b => length_aesEncryptBlock c.key b
  refine ⟨cfbDecBody (aesEncryptBlock c.key) (buf.length + 1) (buf.take 16) (buf.drop 16),
    ?_, ?_, ?_⟩
  · rw [CFBCipher.DecryptBuf, CFBCipher.Decrypt, if_neg (by omega), if_neg (by omega)]
  · rw [CFBCipher.Decrypt, if_neg (by omega)]
  · rw [cfbDecBody_length hE _ _ _ (by simp; omega)]
    simp

/-- Claim C3 amended, witness: the concrete 17-byte buffer from the
counterexample. -/
theorem claim3_witness :
    16 ≤ (List.replicate 17 0 : GoBytes).length ∧
    ∃ plain,
      CFBCipher.DecryptBuf ⟨List.replicate 16 0⟩ (List.replicate 17 0) =
        (.ok plain, (List.replicate 17 0 : GoBytes).take 16 ++ plain) ∧
      CFBCipher.Decrypt ⟨List.replicate 16 0⟩ (List.replicate 17 0) = .ok plain ∧
      plain.length = (List.replicate 17 0 : GoBytes).length - 16 :=
  ⟨by decide, claim3_amended ⟨List.replicate 16 0⟩ (List.replicate 17 0) (by decide)⟩

/-- Claim C4: for every constructed cipher instance — Null, CFB, GCM, and
Base64-wrapped over CFB or GCM — and every plaintext (including the empty
one), decrypting the encryption returns exactly the plaintext, given enough
entropy for the IV/nonce. -/
theorem claim4_roundtrip (secret rnd p : GoBytes) (hs : GoodBytes secret)
    (hr : GoodBytes rnd) (hp : GoodBytes p) :
    obind (DefaultCipher.Encrypt p) DefaultCipher.Decrypt = .ok p ∧
    (∀ c : CFBCipher, NewCFBCipher secret = .ok c → 16 ≤ rnd.length →
      ∃ ct, c.Encrypt rnd p = .ok ct ∧ c.Decrypt ct = .ok p) ∧
    (∀ c : GCMCipher, NewGCMCipher secret = .ok c → 12 ≤ rnd.length →
      ∃ ct, c.Encrypt rnd p = .ok ct ∧ c.Decrypt ct = .ok p) ∧
    (∀ c : CFBCipher, NewBase64Cipher NewCFBCipher secret = .ok c → 16 ≤ rnd.length →
      ∃ ct, Base64Cipher.Encrypt c.Encrypt rnd p = .ok ct ∧
        Base64Cipher.Decrypt c.Decrypt ct = .ok p) ∧
    (∀ c : GCMCipher, NewBase64Cipher NewGCMCipher secret = .ok c → 12 ≤ rnd.length →
      ∃ ct, Base64Cipher.Encrypt c.Encrypt rnd p = .ok ct ∧
        Base64Cipher.Decrypt c.Decrypt ct = .ok p) := by
  refine ⟨rfl, ?_, ?_, ?_, ?_⟩
  · intro c _ h16
    exact cfbDecrypt_encrypt c h16 p
  · intro c _ h12
    have hn : (rnd.take 12).length = 12 := by
      rw [List.length_take]; omega
    exact ⟨_, gcmEncrypt_eq c h12 p, gcmDecrypt_encrypt c hn p⟩
  · intro c hc h16
    rw [NewBase64Cipher_eq] at hc
    have hk : GoodBytes c.key := by rw [NewCFBCipher_key hc]; exact hs
    have hshape := cfbEncrypt_eq c h16 p
    obtain ⟨ct0, henc, hdec⟩ := cfbDecrypt_encrypt c h16 p
    have hct0 : ct0 = rnd.take 16 ++
        cfbEncBody (aesEncryptBlock c.key) (p.length + 1) (rnd.take 16) p := by
      rw [henc] at hshape
      exact Outcome.ok.inj hshape
    have hgood : GoodBytes ct0 := by
      rw [hct0]
      exact good_append (good_take hr 16)
        (good_cfbEncBody (fun b => good_aesEncryptBlock hk b) _ _ _ hp)
    refine ⟨b64Encode ct0, ?_, ?_⟩
    · rw [Base64Cipher.Encrypt, henc]
      rfl
    · rw [Base64Cipher.Decrypt, b64_encode_decode ct0 hgood]
      exact hdec
  · intro c hc h12
    rw [NewBase64Cipher_eq] at hc
    have hk : GoodBytes c.key := by rw [NewGCMCipher_key hc]; exact hs
    have hn : (rnd.take 12).length = 12 := by
      rw [List.length_take]; omega
    have henc := gcmEncrypt_eq c h12 p
    have hgood : GoodBytes (rnd.take 12 ++ gcmSeal c.key (rnd.take 12) p) :=
      good_append (good_take hr 12) (good_gcmSeal hk hp _)
    refine ⟨b64Encode (rnd.take 12 ++ gcmSeal c.key (rnd.take 12) p), ?_, ?_⟩
    · rw [Base64Cipher.Encrypt, henc]
      rfl
    · rw [Base64Cipher.Decrypt, b64_encode_decode _ hgood]
      exact gcmDecrypt_encrypt c hn p

/-- Claim C4 witness: all five variants round-trip on a concrete secret,
entropy stream and plaintext. -/
theorem claim4_witness :
    obind (DefaultCipher.Encrypt [1, 2, 3]) DefaultCipher.Decrypt = .ok [1, 2, 3] ∧
    (∃ ct, CFBCipher.Encrypt ⟨List.replicate 16 0⟩ (List.replicate 16 0) [1, 2, 3] = .ok ct ∧
      CFBCipher.Decrypt ⟨List.replicate 16 0⟩ ct = .ok [1, 2, 3]) ∧
    (∃ ct, GCMCipher.Encrypt ⟨List.replicate 16 0⟩ (List.replicate 16 0) [1, 2, 3] = .ok ct ∧
      GCMCipher.Decrypt ⟨List.replicate 16 0⟩ ct = .ok [1, 2, 3]) ∧
    (∃ ct, Base64Cipher.Encrypt (CFBCipher.Encrypt ⟨List.replicate 16 0⟩)
        (List.replicate 16 0) [1, 2, 3] = .ok ct ∧
      Base64Cipher.Decrypt (CFBCipher.Decrypt ⟨List.replicate 16 0⟩) ct = .ok [1, 2, 3]) ∧
    (∃ ct, Base64Cipher.Encrypt (GCMCipher.Encrypt ⟨List.replicate 16 0⟩)
        (List.replicate 16 0) [1, 2, 3] = .ok ct ∧
      Base64Cipher.Decrypt (GCMCipher.Decrypt ⟨List.replicate 16 0⟩) ct = .ok [1, 2, 3]) := by
  have H := claim4_roundtrip (List.replicate 16 0) (List.replicate 16 0) [1, 2, 3]
    (by decide) (by decide) (by decide)
  exact ⟨H.1,
    H.2.1 ⟨List.replicate 16 0⟩ (by decide) (by decide),
    H.2.2.1 ⟨List.replicate 16 0⟩ (by decide) (by decide),
    H.2.2.2.1 ⟨List.replicate 16 0⟩ (by decide) (by decide),
    H.2.2.2.2 ⟨List.replicate 16 0⟩ (by decide) (by decide)⟩

/-- Claim C5: with the 32-zero-byte secret and plaintext `hello world`, GCM
Encrypt emits `nonce(12) ‖ body(11) ‖ tag(16)` — 39 bytes — whose decryption
returns `hello world` exactly, and whose last-byte-incremented variant fails
with the authentication error. -/
theorem claim5_concrete_gcm (rnd : GoBytes) (h12 : 12 ≤ rnd.length) :
    ∃ body tag,
      GCMCipher.Encrypt ⟨List.replicate 32 0⟩ rnd helloWorld =
        .ok (rnd.take 12 ++ (body ++ tag)) ∧
      (rnd.take 12).length = 12 ∧ body.length = 11 ∧ tag.length = 16 ∧
      (rnd.take 12 ++ (body ++ tag)).length = 39 ∧
      GCMCipher.Decrypt ⟨List.replicate 32 0⟩ (rnd.take 12 ++ (body ++ tag)) =
        .ok helloWorld ∧
      GCMCipher.Decrypt ⟨List.replicate 32 0⟩
        (bumpLast (rnd.take 12 ++ (body ++ tag))) = .err .authFailed := by
  have hn : (rnd.take 12).length = 12 := by
    rw [List.length_take]; omega
  refine ⟨gctr (List.replicate 32 0) (inc32 (gcmJ0 (rnd.take 12))) helloWorld,
    gcmAuth (List.replicate 32 0) (rnd.take 12)
      (gctr (List.replicate 32 0) (inc32 (gcmJ0 (rnd.take 12))) helloWorld),
    ?_, hn, ?_, gcmAuth_length _ _ _, ?_, ?_, ?_⟩
  · exact gcmEncrypt_eq ⟨List.replicate 32 0⟩ h12 helloWorld
  · rw [gctr_length]; rfl
  · rw [List.length_append, List.length_append, hn, gctr_length, gcmAuth_length]; rfl
  · exact gcmDecrypt_encrypt ⟨List.replicate 32 0⟩ hn helloWorld
  · exact gcmDecrypt_tampered ⟨List.replicate 32 0⟩ hn helloWorld

/-- Claim C5 witness: the all-zero 12-byte entropy stream. -/
theorem claim5_witness :
    12 ≤ (List.replicate 12 0 : GoBytes).length ∧
    ∃ body tag,
      GCMCipher.Encrypt ⟨List.replicate 32 0⟩ (List.replicate 12 0) helloWorld =
        .ok ((List.replicate 12 0 : GoBytes).take 12 ++ (body ++ tag)) ∧
      ((List.replicate 12 0 : GoBytes).take 12).length = 12 ∧
      body.length = 11 ∧ tag.length = 16 ∧
      ((List.replicate 12 0 : GoBytes).take 12 ++ (body ++ tag)).length = 39 ∧
      GCMCipher.Decrypt ⟨List.replicate 32 0⟩
        ((List.replicate 12 0 : GoBytes).take 12 ++ (body ++ tag)) = .ok helloWorld ∧
      GCMCipher.Decrypt ⟨List.replicate 32 0⟩
        (bumpLast ((List.replicate 12 0 : GoBytes).take 12 ++ (body ++ tag))) =
          .err .authFailed :=
  ⟨by decide, claim5_concrete_gcm (List.replicate 12 0) (by decide)⟩

end CipherGo
